import Mathlib

/-!
Verification of the koreaferry FAQ-matching core (`src/api/ask.js`).

The repository file `api/ask.js` contains three concatenated revisions of the
same design; the claims cite two of them by line number:
  * "v1-strong"  (lines 1-401): `score`, `dynamicThreshold`, `bestMatch`, ...
  * "FINAL v1.2" (lines 665-930): `calculateScore`, `normalizeLangTag`,
    `detectLang`, `pickAnswer`, `buildCandidates`, `findBestMatch`.
The definitions below are shallow embeddings of those functions, translated
line by line from the JavaScript source.  JavaScript strings are modelled as
`List Char`; JavaScript numbers carrying similarity scores are modelled as `ℚ`
(all score arithmetic in the source is exact at these magnitudes and only
ordering/equality of scores matters for the claims).  `String.normalize('NFKC')`
is modelled as the identity: NFKC is the identity on every code point occurring
in the concrete inputs used here (ASCII, precomposed Hangul, kana, CJK
ideographs), and no claim under verification constrains the NFKC table itself.
`String.toLowerCase` is modelled by `Char.toLower` (ASCII case mapping); no
claim depends on non-ASCII case folding.
-/

/-- JavaScript strings, modelled as lists of characters. -/
abbrev Str := List Char

/-- Convenience conversion from Lean string literals. -/
def str (s : String) : Str := s.data

/-- The whitespace class of the JavaScript `\s` regex and `String.trim`
(restricted to the code points that can occur in this development). -/
def isSpaceChar (c : Char) : Bool :=
  c = ' ' || c = '\t' || c = '\n' || c = '\x0d' || c = '\x0b' || c = '\x0c' || c = '\u00A0'

/-- The invisible formatting characters stripped by the source:
(U+200B zero-width space, U+200C, U+200D zero-width joiner, U+FEFF BOM). -/
def isInvisChar (c : Char) : Bool :=
  c = '\u200B' || c = '\u200C' || c = '\u200D' || c = '\uFEFF'

/-- `stripInvisibles` of the source: remove ZWSP/ZWNJ/ZWJ/BOM. -/
def stripInvisibles (s : Str) : Str := s.filter (fun c => !isInvisChar c)

/-- `cleanText` of the source: strip invisibles, NFKC-normalize (modelled as
the identity, see the file comment), lower-case. -/
def cleanText (s : Str) : Str := (stripInvisibles s).map Char.toLower

/-- `removeSpaces` of the source: `cleanText` then delete all whitespace. -/
def removeSpaces (s : Str) : Str := (cleanText s).filter (fun c => !isSpaceChar c)

/-- `String.prototype.trim`: drop leading and trailing whitespace. -/
def trimStr (s : Str) : Str :=
  ((s.dropWhile isSpaceChar).reverse.dropWhile isSpaceChar).reverse

/-- `getCharSet` of the source: the set of characters of the space-free text. -/
def getCharSet (s : Str) : Finset Char := (removeSpaces s).toFinset

/-- `getBigramSet` of the source: the set of consecutive 2-character windows of
the space-free text (empty when its length is below 2).  A two-character
JavaScript string `t.slice(i, i+2)` is modelled as the pair of its characters. -/
def getBigramSet (s : Str) : Finset (Char × Char) :=
  let t := removeSpaces s
  if t.length < 2 then ∅ else (t.zip t.tail).toFinset

/-- `jaccard` of the source: `0` when either set is empty, otherwise
`|A ∩ B| / (|A| + |B| - |A ∩ B|)`.  The denominator is computed with natural
subtraction, which agrees with the source's real subtraction because
`|A ∩ B| ≤ |A| + |B|`; `mkRat` is exact division (the denominator is positive
whenever this branch is reached). -/
def jaccard {α : Type} [DecidableEq α] (A B : Finset α) : ℚ :=
  if A = ∅ ∨ B = ∅ then 0
  else mkRat ((A ∩ B).card : ℤ) (A.card + B.card - (A ∩ B).card)

/-- `a.isPrefixOf`-based substring test: `p` occurs contiguously in `s`
(the JavaScript `s.includes(p)`). -/
def isSubstr (p s : Str) : Bool := s.tails.any (fun t => p.isPrefixOf t)

/-- `calculateScore` of the FINAL v1.2 revision (identical in structure to
`score` of the v1-strong revision): tiered similarity between a query and a
candidate. -/
def calculateScore (q c : Str) : ℚ :=
  let Q := removeSpaces q
  let C := removeSpaces c
  if Q = [] ∨ C = [] then 0
  else if Q = C then 1
  else if isSubstr C Q || isSubstr Q C then mkRat 98 100
  else
    let s1 := jaccard (getBigramSet Q) (getBigramSet C)
    if 0 < s1 then s1 else jaccard (getCharSet Q) (getCharSet C)

/-- The numeric matching configuration of the source (environment-overridable):
`HARD_MIN` (v1-strong, default `0.30`), `DEFAULT_THRESHOLD` / `FAQ_THRESHOLD`
(default `0.30`) and `MIN_QUERY_CHARS` (default `2`). -/
structure MatchConfig where
  hardMin : ℚ
  defaultThreshold : ℚ
  minQueryChars : ℕ
deriving DecidableEq

/-- The documented default configuration values. -/
def defaultConfig : MatchConfig :=
  { hardMin := mkRat 30 100, defaultThreshold := mkRat 30 100, minQueryChars := 2 }

/-- `dynamicThreshold` of the v1-strong revision: stricter for shorter
(space-stripped) queries, the configured base for six or more characters. -/
def dynamicThreshold (cfg : MatchConfig) (q : Str) : ℚ :=
  let n := (removeSpaces q).length
  if n ≤ 1 then 1
  else if n = 2 then mkRat 98 100
  else if n = 3 then mkRat 60 100
  else if n ≤ 5 then mkRat 40 100
  else cfg.defaultThreshold

/-- The effective acceptance threshold computed inside the v1-strong
`bestMatch`: `Math.max(dynamicThreshold(q), HARD_MIN, baseThreshold)`. -/
def effectiveThreshold (cfg : MatchConfig) (q : Str) (baseThreshold : ℚ) : ℚ :=
  max (max (dynamicThreshold cfg q) cfg.hardMin) baseThreshold

/-- A FAQ corpus entry.  `answers` is the keyed answer object, modelled as an
insertion-ordered association list (JavaScript object key order); the
`answer_*`/`answer` fields are the legacy flat-field schema read by the
v1-strong `pickAnswer`.  Link metadata (`url`, `url_title`) plays no role in
any claim and is omitted. -/
structure FaqEntry where
  id : Str := []
  question : Str := []
  aliases : List Str := []
  keywords_core : List Str := []
  keywords_related : List Str := []
  answers : List (Str × Str) := []
  answer_ko : Option Str := none
  answer_ja : Option Str := none
  answer_zh : Option Str := none
  answer_en : Option Str := none
  answer : Option Str := none
deriving DecidableEq

/-- A matchable string extracted from an entry, tagged with its provenance
(the source's `from` field, a Lean keyword, is called `fromTag` here). -/
structure Candidate where
  text : Str
  fromTag : Str
deriving DecidableEq

/-- The `add`/`push` closure inside `buildCandidates`: skip empty strings and
(provenance, text) duplicates, else append. -/
def pushCand (out : List Candidate) (text : Str) (tag : Str) : List Candidate :=
  if text = [] then out
  else if out.any (fun c => c.fromTag == tag && c.text == text) then out
  else out ++ [{ text := text, fromTag := tag }]

/-- `buildCandidates` of the FINAL v1.2 revision (the v1-strong revision's
`buildCandidates` is identical): question, aliases, core keywords, related
keywords, de-duplicated by (provenance, text). -/
def buildCandidates (faq : FaqEntry) : List Candidate :=
  let o1 := pushCand [] faq.question (str "question")
  let o2 := faq.aliases.foldl (fun acc v => pushCand acc v (str "alias")) o1
  let o3 := faq.keywords_core.foldl (fun acc v => pushCand acc v (str "core")) o2
  faq.keywords_related.foldl (fun acc v => pushCand acc v (str "related")) o3

/-- The (entry, candidate) pairs visited by the nested `for` loops of the
match selectors, in visit order. -/
def pairList (faqs : List FaqEntry) : List (FaqEntry × Candidate) :=
  faqs.flatMap (fun f => (buildCandidates f).map (fun c => (f, c)))

/-- The selector's result/accumulator record
`{ score, entry, matched, from }`; `entry = none` models JavaScript `null`. -/
structure MatchResult where
  score : ℚ
  entry : Option FaqEntry
  matched : Str
  fromTag : Str
deriving DecidableEq

/-- The initial accumulator `{ score: -1, entry: null, matched: '', from: '' }`. -/
def initBest : MatchResult := { score := -1, entry := none, matched := [], fromTag := [] }

/-- One step of the selectors' best-tracking:
`if (sc > best.score) best = { score: sc, entry: f, matched: c.text, from: c.from }`. -/
def updBest (q : Str) (best : MatchResult) (p : FaqEntry × Candidate) : MatchResult :=
  let sc := calculateScore q p.2.text
  if best.score < sc then { score := sc, entry := some p.1, matched := p.2.text, fromTag := p.2.fromTag }
  else best

/-- Outcome of the FINAL v1.2 scan: either an early `return` on an exact
candidate, or the tracked best after the full scan. -/
inductive ScanOut where
  | found (m : MatchResult)
  | scanned (b : MatchResult)
deriving DecidableEq

/-- The main loop of the FINAL v1.2 `findBestMatch`: early-return on the first
candidate whose space-stripped text is nonempty and equals the stripped query,
otherwise fold the strict-improvement best update over the remaining pairs. -/
def scanPairs (qClean q : Str) (best : MatchResult) : List (FaqEntry × Candidate) → ScanOut
  | [] => .scanned best
  | p :: rest =>
    let cn := removeSpaces p.2.text
    if cn ≠ [] ∧ cn = qClean then
      .found { score := 1, entry := some p.1, matched := p.2.text, fromTag := p.2.fromTag }
    else scanPairs qClean q (updBest q best p) rest

/-- The short-query loop of the FINAL v1.2 `findBestMatch`: return the first
candidate whose space-stripped text equals the stripped query (note: without
the nonemptiness guard of the main loop), else `null`. -/
def firstExact (qClean : Str) : List (FaqEntry × Candidate) → Option MatchResult
  | [] => none
  | p :: rest =>
    if removeSpaces p.2.text = qClean then
      some { score := 1, entry := some p.1, matched := p.2.text, fromTag := p.2.fromTag }
    else firstExact qClean rest

/-- `findBestMatch` of the FINAL v1.2 revision, parameterised by the corpus
and the configuration the source reads from module-level constants. -/
def findBestMatch (cfg : MatchConfig) (faqs : List FaqEntry) (question : Str) : Option MatchResult :=
  let q := trimStr question
  let qClean := removeSpaces q
  if qClean.length < cfg.minQueryChars then
    firstExact qClean (pairList faqs)
  else
    match scanPairs qClean q initBest (pairList faqs) with
    | .found m => some m
    | .scanned b => if cfg.defaultThreshold ≤ b.score then some b else none

/-- `bestMatch` of the v1-strong revision: reject short queries outright, then
take the best-scoring pair over the corpus (no exact-match fast path) and
compare it against the effective threshold. -/
def bestMatch (cfg : MatchConfig) (faqs : List FaqEntry) (question : Str) (baseThreshold : ℚ) : Option MatchResult :=
  let q := trimStr question
  let qlen := (removeSpaces q).length
  if qlen < cfg.minQueryChars then none
  else
    let threshold := effectiveThreshold cfg q baseThreshold
    let best := (pairList faqs).foldl (updBest q) initBest
    if threshold ≤ best.score then some best else none

/-- `String.prototype.toLowerCase`, character-wise (see the file comment). -/
def lowerStr (s : Str) : Str := s.map Char.toLower

/-- JavaScript `s.replace('_', '-')` with a string pattern: replace only the
first occurrence. -/
def replaceFirstUnderscore : Str → Str
  | [] => []
  | c :: cs => if c = '_' then '-' :: cs else c :: replaceFirstUnderscore cs

/-- The branch cascade of `normalizeLangTag` applied to the preprocessed tag
`s` (the source's `const s = String(tag || '').toLowerCase().replace('_','-').trim()`). -/
def normTagBranches (s : Str) : Str :=
  if s = [] then []
  else if s = str "zh" ∨ (str "zh-").isPrefixOf s then
    (if isSubstr (str "cn") s || isSubstr (str "sg") s || isSubstr (str "hans") s then str "zh-hans"
     else str "zh-hant")
  else if s = str "zh-tw" ∨ s = str "zhtw" then str "zh-hant"
  else if s = str "zh-cn" ∨ s = str "zhcn" then str "zh-hans"
  else if (str "ko").isPrefixOf s then str "ko"
  else if (str "ja").isPrefixOf s then str "ja"
  else if (str "en").isPrefixOf s then str "en"
  else s

/-- `normalizeLangTag` of the FINAL v1.2 revision: lower-case, unify the first
underscore, trim, then map recognised spellings onto the canonical tags
(Chinese defaults to Traditional in this revision); unrecognised tags fall
through unchanged. -/
def normalizeLangTag (tag : Str) : Str :=
  normTagBranches (trimStr (replaceFirstUnderscore (lowerStr tag)))

/-- The request data consulted by `detectLang`.  `langParam` models the merged
`url.searchParams.get('lang') || (req.body && req.body.lang)` (the first truthy
of the two; `none` when both are absent/falsy in a way that yields no string);
`acceptLanguage` models `req.headers['accept-language']` (`[]` when absent).
The `try/catch` wrappers never fire in this total model. -/
structure ReqCtx where
  langParam : Option Str
  acceptLanguage : Str
deriving DecidableEq

/-- Character-range membership test used to model the source's regex character
classes. -/
def inRange (lo hi : ℕ) (c : Char) : Bool := decide (lo ≤ c.toNat ∧ c.toNat ≤ hi)

/-- `/[가-힣]/` : precomposed Hangul syllables U+AC00 - U+D7A3. -/
def hasHangul (s : Str) : Bool := s.any (inRange 0xAC00 0xD7A3)

/-- `/[぀-ゟ]/ || /[゠-ヿｦ-ﾟ]/` : hiragana,
katakana, halfwidth katakana. -/
def hasKana (s : Str) : Bool :=
  s.any (fun c => inRange 0x3040 0x309F c || inRange 0x30A0 0x30FF c || inRange 0xFF66 0xFF9F c)

/-- `/[一-鿿]/` : CJK unified ideographs. -/
def hasHan (s : Str) : Bool := s.any (inRange 0x4E00 0x9FFF)

/-- `/[a-zA-Z]/` : basic Latin letters. -/
def hasLatin (s : Str) : Bool := s.any (fun c => inRange 65 90 c || inRange 97 122 c)

/-- The Japanese lexical hints of the FINAL v1.2 `detectLang`:
`/手荷物|船内持込|船內持込|円|樣|様|さん|です|ます|ください|頂き/`. -/
def jaHintStrs : List Str :=
  [str "手荷物", str "船内持込", str "船內持込", str "円", str "樣", str "様",
   str "さん", str "です", str "ます", str "ください", str "頂き"]

/-- Whether any Japanese lexical hint occurs in the text. -/
def hasJaHint (s : Str) : Bool := jaHintStrs.any (fun h => isSubstr h s)

/-- `header.split(',')[0]` of the lower-cased Accept-Language header. -/
def firstHeaderTag (req : ReqCtx) : Str :=
  (lowerStr req.acceptLanguage).takeWhile (fun c => c != ',')

/-- Steps 2-4 of the FINAL v1.2 `detectLang` (after the explicit parameter):
script heuristic for Hangul/kana/ideographs, then the Accept-Language header,
then Latin, then the `ko` default. -/
def detectLangRest (query : Str) (req : ReqCtx) : Str :=
  if hasHangul query then str "ko"
  else if hasKana query then str "ja"
  else if hasHan query then (if hasJaHint query then str "ja" else str "zh-hant")
  else if lowerStr req.acceptLanguage ≠ [] ∧ normalizeLangTag (firstHeaderTag req) ≠ [] then
    normalizeLangTag (firstHeaderTag req)
  else if hasLatin query then str "en"
  else str "ko"

/-- `detectLang` of the FINAL v1.2 revision: explicit `lang` parameter first
(skipped when falsy or literally `auto`), then `detectLangRest`. -/
def detectLang (query : Str) (req : ReqCtx) : Str :=
  match req.langParam with
  | some p => if p ≠ [] ∧ lowerStr p ≠ str "auto" then normalizeLangTag p else detectLangRest query req
  | none => detectLangRest query req

/-- The explicit `lang` parameter does not decide the language: it is absent,
empty, or literally `auto`. -/
def paramInactive (req : ReqCtx) : Prop :=
  match req.langParam with
  | none => True
  | some p => p = [] ∨ lowerStr p = str "auto"

/-- JavaScript object assignment `m[k] = v` on an insertion-ordered object:
overwrite in place when the key exists, else append. -/
def objSet (m : List (Str × Str)) (k v : Str) : List (Str × Str) :=
  if m.any (fun p => p.1 == k) then m.map (fun p => if p.1 == k then (p.1, v) else p)
  else m ++ [(k, v)]

/-- JavaScript object read `m[k]`, with `undefined` collapsed to the empty
string (both are falsy everywhere `pickAnswer` reads the object). -/
def objGet (m : List (Str × Str)) (k : Str) : Str :=
  match m.find? (fun p => p.1 == k) with
  | some p => p.2
  | none => []

/-- One iteration of the key-normalisation loop in the FINAL v1.2
`pickAnswer`: lower-case the key, unify the first underscore, store, and
cross-populate `zh-hant` from `zh-tw` and `zh-hans` from `zh-cn`/`zh`. -/
def normAnswersStep (m : List (Str × Str)) (kv : Str × Str) : List (Str × Str) :=
  let kk := replaceFirstUnderscore (lowerStr kv.1)
  let m1 := objSet m kk kv.2
  let m2 := if kk = str "zh-tw" then objSet m1 (str "zh-hant") kv.2 else m1
  if kk = str "zh-cn" ∨ kk = str "zh" then objSet m2 (str "zh-hans") kv.2 else m2

/-- The normalised answer object `m` built by the FINAL v1.2 `pickAnswer`. -/
def normAnswers (answers : List (Str × Str)) : List (Str × Str) :=
  answers.foldl normAnswersStep []

/-- JavaScript `a || b` on strings (empty string is falsy). -/
def jsOr (a b : Str) : Str := if a = [] then b else a

/-- `Object.values(m)[0]`, with `undefined` collapsed to the empty string. -/
def firstValue (m : List (Str × Str)) : Str :=
  match m.head? with
  | some p => p.2
  | none => []

/-- `pickAnswer` of the FINAL v1.2 revision: the `||` fallback chain over the
normalised answer object.  Only `entry.answers` is consulted; the legacy flat
fields are not read by this revision. -/
def pickAnswer (entry : FaqEntry) (langInput : Str) : Str :=
  let lang := normalizeLangTag langInput
  let m := normAnswers entry.answers
  jsOr (objGet m lang)
    (jsOr (if (str "zh").isPrefixOf lang then jsOr (objGet m (str "zh-hant")) (objGet m (str "zh-tw")) else [])
      (jsOr (objGet m (str "ko"))
        (jsOr (objGet m (str "ja"))
          (jsOr (objGet m (str "en"))
            (jsOr (objGet m (str "zh-hant"))
              (jsOr (objGet m (str "zh-tw"))
                (jsOr (objGet m (str "zh"))
                  (jsOr (objGet m (str "zh-hans")) (firstValue m)))))))))

/-- The answer-fallback priority order actually implemented by the FINAL v1.2
`pickAnswer`, written as an explicit key list: the requested tag (preceded by
the Traditional keys for Chinese requests), then Korean, Japanese, English,
Traditional, `zh-tw`, `zh`, Simplified. -/
def priorityList (lang : Str) : List Str :=
  (if (str "zh").isPrefixOf lang then [lang, str "zh-hant", str "zh-tw"] else [lang]) ++
  [str "ko", str "ja", str "en", str "zh-hant", str "zh-tw", str "zh", str "zh-hans"]

/-- Specification-shaped answer resolution: the first key of `priorityList`
with a nonempty value in the normalised answer object, else the first value
in insertion order, else the empty string. -/
def pickAnswerSpec (entry : FaqEntry) (langInput : Str) : Str :=
  let lang := normalizeLangTag langInput
  let m := normAnswers entry.answers
  match (priorityList lang).find? (fun k => objGet m k != []) with
  | some k => objGet m k
  | none => firstValue m

theorem jaccard_nonneg {α : Type} [DecidableEq α] (A B : Finset α) : 0 ≤ jaccard A B := by
  unfold jaccard
  split
  · exact le_refl 0
  · exact Rat.mkRat_nonneg (Int.natCast_nonneg _) _

theorem jaccard_denom_eq_card_union {α : Type} [DecidableEq α] (A B : Finset α) :
    A.card + B.card - (A ∩ B).card = (A ∪ B).card := by
  rw [Finset.card_union]

theorem jaccard_le_one {α : Type} [DecidableEq α] (A B : Finset α) : jaccard A B ≤ 1 := by
  unfold jaccard
  split
  · norm_num
  · rename_i h
    push_neg at h
    rw [jaccard_denom_eq_card_union, Rat.mkRat_eq_div]
    have hpos : 0 < ((A ∪ B).card : ℚ) := by
      have : (A ∪ B).Nonempty :=
        Finset.Nonempty.mono Finset.subset_union_left (Finset.nonempty_iff_ne_empty.2 h.1)
      exact_mod_cast Finset.card_pos.2 this
    rw [div_le_one hpos]
    exact_mod_cast Finset.card_le_card Finset.inter_subset_union

theorem jaccard_lt_one {α : Type} [DecidableEq α] (A B : Finset α) (hne : A ≠ B) :
    jaccard A B < 1 := by
  unfold jaccard
  split
  · norm_num
  · rename_i h
    push_neg at h
    rw [jaccard_denom_eq_card_union, Rat.mkRat_eq_div]
    have hpos : 0 < ((A ∪ B).card : ℚ) := by
      have : (A ∪ B).Nonempty :=
        Finset.Nonempty.mono Finset.subset_union_left (Finset.nonempty_iff_ne_empty.2 h.1)
      exact_mod_cast Finset.card_pos.2 this
    rw [div_lt_one hpos]
    have hne2 : A ∩ B ≠ A ∪ B := by
      intro heq
      apply hne
      apply Finset.Subset.antisymm
      · intro x hx
        have hx2 : x ∈ A ∩ B := heq ▸ Finset.mem_union_left B hx
        exact (Finset.mem_inter.1 hx2).2
      · intro x hx
        have hx2 : x ∈ A ∩ B := heq ▸ Finset.mem_union_right A hx
        exact (Finset.mem_inter.1 hx2).1
    exact_mod_cast Finset.card_lt_card (Finset.inter_subset_union.ssubset_of_ne hne2)

theorem jaccard_pos_iff {α : Type} [DecidableEq α] (A B : Finset α) :
    0 < jaccard A B ↔ (A ∩ B).Nonempty := by
  unfold jaccard
  split
  · rename_i h
    constructor
    · intro h0
      exact absurd h0 (lt_irrefl 0)
    · intro hnon
      rcases h with h | h
      · rw [h] at hnon
        simp at hnon
      · rw [h] at hnon
        simp at hnon
  · rename_i h
    push_neg at h
    rw [jaccard_denom_eq_card_union, Rat.mkRat_eq_div]
    have hpos : 0 < ((A ∪ B).card : ℚ) := by
      have : (A ∪ B).Nonempty :=
        Finset.Nonempty.mono Finset.subset_union_left (Finset.nonempty_iff_ne_empty.2 h.1)
      exact_mod_cast Finset.card_pos.2 this
    rw [div_pos_iff_of_pos_right hpos]
    constructor
    · intro h0
      have : 0 < (A ∩ B).card := by exact_mod_cast h0
      exact Finset.card_pos.1 this
    · intro hnon
      exact_mod_cast Finset.card_pos.2 hnon

theorem calcScore_spec (q c : Str) :
    ((removeSpaces q = [] ∨ removeSpaces c = []) → calculateScore q c = 0) ∧
    (removeSpaces q ≠ [] → removeSpaces c ≠ [] → removeSpaces q = removeSpaces c →
      calculateScore q c = 1) ∧
    (removeSpaces q ≠ [] → removeSpaces c ≠ [] → removeSpaces q ≠ removeSpaces c →
      (isSubstr (removeSpaces c) (removeSpaces q) || isSubstr (removeSpaces q) (removeSpaces c)) = true →
      calculateScore q c = mkRat 98 100) ∧
    (removeSpaces q ≠ [] → removeSpaces c ≠ [] → removeSpaces q ≠ removeSpaces c →
      (isSubstr (removeSpaces c) (removeSpaces q) || isSubstr (removeSpaces q) (removeSpaces c)) = false →
      (getBigramSet (removeSpaces q) ∩ getBigramSet (removeSpaces c)).Nonempty →
      calculateScore q c = jaccard (getBigramSet (removeSpaces q)) (getBigramSet (removeSpaces c))) ∧
    (removeSpaces q ≠ [] → removeSpaces c ≠ [] → removeSpaces q ≠ removeSpaces c →
      (isSubstr (removeSpaces c) (removeSpaces q) || isSubstr (removeSpaces q) (removeSpaces c)) = false →
      ¬(getBigramSet (removeSpaces q) ∩ getBigramSet (removeSpaces c)).Nonempty →
      calculateScore q c = jaccard (getCharSet (removeSpaces q)) (getCharSet (removeSpaces c))) := by
  refine ⟨?_, ?_, ?_, ?_, ?_⟩
  · intro h
    simp [calculateScore, h]
  · intro hq hc he
    simp [calculateScore, hq, hc, he]
  · intro hq hc hne hsub
    simp [calculateScore, hq, hc, hne, hsub]
  · intro hq hc hne hsub hnon
    have hpos := (jaccard_pos_iff (getBigramSet (removeSpaces q)) (getBigramSet (removeSpaces c))).2 hnon
    simp [calculateScore, hq, hc, hne, hsub, hpos]
  · intro hq hc hne hsub hnon
    have hnpos : ¬ 0 < jaccard (getBigramSet (removeSpaces q)) (getBigramSet (removeSpaces c)) := by
      intro h
      exact hnon ((jaccard_pos_iff _ _).1 h)
    simp [calculateScore, hq, hc, hne, hsub, hnpos]

/-- C1: `calculateScore` evaluates its tiers in strict priority order with
short-circuit: equal nonempty space-stripped normalized forms give `1`;
otherwise a substring relation either way gives `0.98`; otherwise, if the two
bigram sets share at least one bigram, the result is their Jaccard similarity;
otherwise it is the Jaccard similarity of the character sets; and if either
side is empty after normalization the result is `0`. -/
theorem C1_calculateScore_tier_order (q c : Str) :
    ((removeSpaces q = [] ∨ removeSpaces c = []) → calculateScore q c = 0) ∧
    (removeSpaces q ≠ [] → removeSpaces c ≠ [] → removeSpaces q = removeSpaces c →
      calculateScore q c = 1) ∧
    (removeSpaces q ≠ [] → removeSpaces c ≠ [] → removeSpaces q ≠ removeSpaces c →
      (isSubstr (removeSpaces c) (removeSpaces q) || isSubstr (removeSpaces q) (removeSpaces c)) = true →
      calculateScore q c = mkRat 98 100) ∧
    (removeSpaces q ≠ [] → removeSpaces c ≠ [] → removeSpaces q ≠ removeSpaces c →
      (isSubstr (removeSpaces c) (removeSpaces q) || isSubstr (removeSpaces q) (removeSpaces c)) = false →
      (getBigramSet (removeSpaces q) ∩ getBigramSet (removeSpaces c)).Nonempty →
      calculateScore q c = jaccard (getBigramSet (removeSpaces q)) (getBigramSet (removeSpaces c))) ∧
    (removeSpaces q ≠ [] → removeSpaces c ≠ [] → removeSpaces q ≠ removeSpaces c →
      (isSubstr (removeSpaces c) (removeSpaces q) || isSubstr (removeSpaces q) (removeSpaces c)) = false →
      ¬(getBigramSet (removeSpaces q) ∩ getBigramSet (removeSpaces c)).Nonempty →
      calculateScore q c = jaccard (getCharSet (removeSpaces q)) (getCharSet (removeSpaces c))) :=
  calcScore_spec q c

/-- Witness for C1 at concrete inputs: the containment tier fires for
`"ab cd"` vs `"bc"` and yields `0.98`. -/
theorem C1_calculateScore_tier_order_witness :
    calculateScore (str "ab cd") (str "bc") = mkRat 98 100 :=
  (C1_calculateScore_tier_order (str "ab cd") (str "bc")).2.2.1
    (by decide) (by decide) (by decide) (by decide)

/-- C4 counterexample: `"abab"` vs `"baba"` are distinct, in no substring
relation, share bigrams, and yet score exactly `1` from the bigram-Jaccard
tier (their bigram sets coincide), contradicting the claim that tier scores
are strictly below `1`. -/
theorem C4_counterexample_bigram_tier_reaches_one :
    removeSpaces (str "abab") ≠ removeSpaces (str "baba") ∧
    (isSubstr (removeSpaces (str "baba")) (removeSpaces (str "abab")) ||
      isSubstr (removeSpaces (str "abab")) (removeSpaces (str "baba"))) = false ∧
    (getBigramSet (removeSpaces (str "abab")) ∩ getBigramSet (removeSpaces (str "baba"))).Nonempty ∧
    calculateScore (str "abab") (str "baba") = 1 := by decide

/-- C4 (amended): every score lies in `[0, 1]`; a score produced by the
bigram-Jaccard tier is strictly below `1` whenever the two bigram sets differ,
and one produced by the character-Jaccard tier is strictly below `1` whenever
the two character sets differ (when the respective sets coincide those tiers
reach exactly `1`, as the counterexample shows). -/
theorem C4_calculateScore_bounds (q c : Str) :
    (0 ≤ calculateScore q c ∧ calculateScore q c ≤ 1) ∧
    (removeSpaces q ≠ [] → removeSpaces c ≠ [] → removeSpaces q ≠ removeSpaces c →
      (isSubstr (removeSpaces c) (removeSpaces q) || isSubstr (removeSpaces q) (removeSpaces c)) = false →
      (getBigramSet (removeSpaces q) ∩ getBigramSet (removeSpaces c)).Nonempty →
      getBigramSet (removeSpaces q) ≠ getBigramSet (removeSpaces c) →
      calculateScore q c < 1) ∧
    (removeSpaces q ≠ [] → removeSpaces c ≠ [] → removeSpaces q ≠ removeSpaces c →
      (isSubstr (removeSpaces c) (removeSpaces q) || isSubstr (removeSpaces q) (removeSpaces c)) = false →
      ¬(getBigramSet (removeSpaces q) ∩ getBigramSet (removeSpaces c)).Nonempty →
      getCharSet (removeSpaces q) ≠ getCharSet (removeSpaces c) →
      calculateScore q c < 1) := by
  refine ⟨⟨?_, ?_⟩, ?_, ?_⟩
  · simp only [calculateScore]
    split_ifs
    · exact le_refl 0
    · norm_num
    · decide
    · exact jaccard_nonneg _ _
    · exact jaccard_nonneg _ _
  · simp only [calculateScore]
    split_ifs
    · norm_num
    · exact le_refl 1
    · decide
    · exact jaccard_le_one _ _
    · exact jaccard_le_one _ _
  · intro hq hc hne hsub hnon hsets
    rw [(calcScore_spec q c).2.2.2.1 hq hc hne hsub hnon]
    exact jaccard_lt_one _ _ hsets
  · intro hq hc hne hsub hnon hsets
    rw [(calcScore_spec q c).2.2.2.2 hq hc hne hsub hnon]
    exact jaccard_lt_one _ _ hsets

/-- Witness for C4 at concrete inputs: `"abc"` vs `"abd"` reach the bigram
tier with distinct bigram sets, so the score is strictly below `1`. -/
theorem C4_calculateScore_bounds_witness :
    0 ≤ calculateScore (str "abc") (str "abd") ∧ calculateScore (str "abc") (str "abd") < 1 :=
  ⟨(C4_calculateScore_bounds (str "abc") (str "abd")).1.1,
    (C4_calculateScore_bounds (str "abc") (str "abd")).2.1
      (by decide) (by decide) (by decide) (by decide) (by decide) (by decide)⟩

theorem dynamicThreshold_anti_default (q₁ q₂ : Str)
    (h : (removeSpaces q₁).length ≤ (removeSpaces q₂).length) :
    dynamicThreshold defaultConfig q₂ ≤ dynamicThreshold defaultConfig q₁ := by
  unfold dynamicThreshold defaultConfig
  dsimp only
  split_ifs <;> first | decide | omega

theorem dynamicThreshold_tail_default (q : Str) (h : 6 ≤ (removeSpaces q).length) :
    dynamicThreshold defaultConfig q = defaultConfig.defaultThreshold := by
  unfold dynamicThreshold
  dsimp only
  split_ifs <;> first | rfl | omega

/-- C3: the acceptance threshold used by the v1-strong `bestMatch` is the
three-way maximum of the dynamic threshold, the hard floor and the base
threshold; under the default configuration it is non-increasing in
space-stripped query length and equals the `0.30` baseline from six
characters on. -/
theorem C3_effectiveThreshold_spec :
    (∀ cfg q base, effectiveThreshold cfg q base =
      max (max (dynamicThreshold cfg q) cfg.hardMin) base) ∧
    (∀ q₁ q₂, (removeSpaces q₁).length ≤ (removeSpaces q₂).length →
      effectiveThreshold defaultConfig q₂ defaultConfig.defaultThreshold ≤
        effectiveThreshold defaultConfig q₁ defaultConfig.defaultThreshold) ∧
    (∀ q, 6 ≤ (removeSpaces q).length →
      effectiveThreshold defaultConfig q defaultConfig.defaultThreshold =
        defaultConfig.defaultThreshold) := by
  refine ⟨fun _ _ _ => rfl, ?_, ?_⟩
  · intro q₁ q₂ h
    exact max_le_max (max_le_max (dynamicThreshold_anti_default q₁ q₂ h) (le_refl _)) (le_refl _)
  · intro q h
    have hdyn := dynamicThreshold_tail_default q h
    unfold effectiveThreshold
    rw [hdyn]
    decide

/-- Witness for C3 at concrete inputs: a 3-character query faces at least the
threshold of a 6-character query, and the latter equals the baseline. -/
theorem C3_effectiveThreshold_spec_witness :
    effectiveThreshold defaultConfig (str "abcdef") defaultConfig.defaultThreshold ≤
      effectiveThreshold defaultConfig (str "abc") defaultConfig.defaultThreshold ∧
    effectiveThreshold defaultConfig (str "abcdef") defaultConfig.defaultThreshold =
      defaultConfig.defaultThreshold :=
  ⟨C3_effectiveThreshold_spec.2.1 (str "abc") (str "abcdef") (by decide),
    C3_effectiveThreshold_spec.2.2 (str "abcdef") (by decide)⟩

theorem firstExact_eq_none_iff (qc : Str) (ps : List (FaqEntry × Candidate)) :
    firstExact qc ps = none ↔ ∀ p ∈ ps, removeSpaces p.2.text ≠ qc := by
  induction ps with
  | nil => simp [firstExact]
  | cons p rest ih =>
    by_cases h : removeSpaces p.2.text = qc
    · simp [firstExact, h]
    · simp [firstExact, h, ih]

theorem firstExact_some_spec (qc : Str) (ps : List (FaqEntry × Candidate)) (m : MatchResult)
    (h : firstExact qc ps = some m) :
    m.score = 1 ∧ ∃ p ∈ ps, m.entry = some p.1 ∧ m.matched = p.2.text ∧ removeSpaces p.2.text = qc := by
  induction ps with
  | nil => simp [firstExact] at h
  | cons p rest ih =>
    by_cases hp : removeSpaces p.2.text = qc
    · simp only [firstExact, if_pos hp] at h
      injection h with h
      subst h
      exact ⟨rfl, p, by simp, rfl, rfl, hp⟩
    · simp only [firstExact, if_neg hp] at h
      obtain ⟨h1, p', hp', hrest⟩ := ih h
      exact ⟨h1, p', by simp [hp'], hrest⟩

theorem findBestMatch_short_eq (cfg : MatchConfig) (faqs : List FaqEntry) (question : Str)
    (h : (removeSpaces (trimStr question)).length < cfg.minQueryChars) :
    findBestMatch cfg faqs question =
      firstExact (removeSpaces (trimStr question)) (pairList faqs) := by
  unfold findBestMatch
  dsimp only
  rw [if_pos h]

theorem forall_pairList {faqs : List FaqEntry} {P : FaqEntry → Candidate → Prop} :
    (∀ p ∈ pairList faqs, P p.1 p.2) ↔ ∀ f ∈ faqs, ∀ c ∈ buildCandidates f, P f c := by
  simp only [pairList, List.mem_flatMap, List.mem_map]
  constructor
  · intro h f hf c hc
    exact h (f, c) ⟨f, hf, c, hc, rfl⟩
  · intro h p hp
    obtain ⟨f, hf, c, hc, hpc⟩ := hp
    subst hpc
    exact h f hf c hc

theorem exists_pairList {faqs : List FaqEntry} {P : FaqEntry → Candidate → Prop} :
    (∃ p ∈ pairList faqs, P p.1 p.2) ↔ ∃ f ∈ faqs, ∃ c ∈ buildCandidates f, P f c := by
  simp only [pairList, List.mem_flatMap, List.mem_map]
  constructor
  · intro h
    obtain ⟨p, ⟨f, hf, c, hc, hpc⟩, hP⟩ := h
    subst hpc
    exact ⟨f, hf, c, hc, hP⟩
  · intro h
    obtain ⟨f, hf, c, hc, hP⟩ := h
    exact ⟨(f, c), ⟨f, hf, c, hc, rfl⟩, hP⟩

theorem findBestMatch_short_cases (cfg : MatchConfig) (faqs : List FaqEntry) (question : Str)
    (h : (removeSpaces (trimStr question)).length < cfg.minQueryChars) :
    (findBestMatch cfg faqs question = none ↔
      ∀ f ∈ faqs, ∀ c ∈ buildCandidates f,
        removeSpaces c.text ≠ removeSpaces (trimStr question)) ∧
    (∀ m, findBestMatch cfg faqs question = some m →
      m.score = 1 ∧ ∃ f ∈ faqs, ∃ c ∈ buildCandidates f,
        m.entry = some f ∧ m.matched = c.text ∧
        removeSpaces c.text = removeSpaces (trimStr question)) := by
  constructor
  · rw [findBestMatch_short_eq cfg faqs question h, firstExact_eq_none_iff]
    exact forall_pairList
      (P := fun _ c => removeSpaces c.text ≠ removeSpaces (trimStr question))
  · intro m hm
    rw [findBestMatch_short_eq cfg faqs question h] at hm
    obtain ⟨h1, p, hp, he, hmt, hqc⟩ := firstExact_some_spec _ _ _ hm
    refine ⟨h1, ?_⟩
    have hex := @exists_pairList faqs
      (fun f c => m.entry = some f ∧ m.matched = c.text ∧
        removeSpaces c.text = removeSpaces (trimStr question))
    exact hex.1 ⟨p, hp, he, hmt, hqc⟩

/-- C2: for queries whose space-stripped length is below `minQueryChars`,
`findBestMatch` returns `null` unless some entry has a candidate whose
space-stripped normalized text equals the query's, in which case it returns
such an entry with score `1`. -/
theorem C2_findBestMatch_short_query (cfg : MatchConfig) (faqs : List FaqEntry) (question : Str)
    (h : (removeSpaces (trimStr question)).length < cfg.minQueryChars) :
    (findBestMatch cfg faqs question = none ↔
      ∀ f ∈ faqs, ∀ c ∈ buildCandidates f,
        removeSpaces c.text ≠ removeSpaces (trimStr question)) ∧
    (∀ m, findBestMatch cfg faqs question = some m →
      m.score = 1 ∧ ∃ f ∈ faqs, ∃ c ∈ buildCandidates f,
        m.entry = some f ∧ m.matched = c.text ∧
        removeSpaces c.text = removeSpaces (trimStr question)) :=
  findBestMatch_short_cases cfg faqs question h

/-- Witness for C2: the single-character query `"짐"` is below the default
two-character minimum, yet matches an entry carrying it as an alias, with
score `1`. -/
theorem C2_findBestMatch_short_query_witness :
    findBestMatch defaultConfig [{ question := str "수하물 보관", aliases := [str "짐"] }] (str "짐") ≠ none := by
  have h := (C2_findBestMatch_short_query defaultConfig
    [{ question := str "수하물 보관", aliases := [str "짐"] }] (str "짐") (by decide)).1
  intro hnone
  have hall := h.1 hnone
  have hmem : ({ text := str "짐", fromTag := str "alias" } : Candidate) ∈
      buildCandidates { question := str "수하물 보관", aliases := [str "짐"] } := by decide
  exact hall _ (by decide) _ hmem (by decide)

/-- C8 counterexample: with a corpus entry carrying a whitespace-only alias,
the FINAL v1.2 `findBestMatch` returns a score-1 match for the empty query
instead of `null` (the short-query loop compares space-stripped candidates
against the empty stripped query without a nonemptiness guard). -/
theorem C8_counterexample_empty_query_matches :
    removeSpaces (trimStr (str "")) = [] ∧
    findBestMatch defaultConfig [{ question := str "how are you", aliases := [str " "] }] (str "") =
      some { score := 1,
             entry := some { question := str "how are you", aliases := [str " "] },
             matched := str " ", fromTag := str "alias" } := by decide

/-- C8 (amended): for an empty or missing query (space-stripped form empty)
and a positive minimum-query-character configuration, `findBestMatch` returns
`null` unless some candidate's space-stripped text is itself empty, in which
case it returns that candidate as a score-1 exact match; the function is total,
so no exception is possible in the model. -/
theorem C8_findBestMatch_empty_query (cfg : MatchConfig) (faqs : List FaqEntry) (question : Str)
    (h0 : removeSpaces (trimStr question) = []) (hmin : 0 < cfg.minQueryChars) :
    (findBestMatch cfg faqs question = none ↔
      ∀ f ∈ faqs, ∀ c ∈ buildCandidates f, removeSpaces c.text ≠ []) ∧
    (∀ m, findBestMatch cfg faqs question = some m → m.score = 1) := by
  have hlen : (removeSpaces (trimStr question)).length < cfg.minQueryChars := by
    rw [h0]
    exact hmin
  have h := findBestMatch_short_cases cfg faqs question hlen
  rw [h0] at h
  exact ⟨h.1, fun m hm => (h.2 m hm).1⟩

/-- Witness for C8: over the empty corpus the empty query yields `null`. -/
theorem C8_findBestMatch_empty_query_witness :
    findBestMatch defaultConfig [] (str "") = none :=
  (C8_findBestMatch_empty_query defaultConfig [] (str "") (by decide) (by decide)).1.2
    (by intro f hf c hc hx; cases hf)

theorem scanPairs_no_exact (qClean q : Str) (b : MatchResult) (ps : List (FaqEntry × Candidate))
    (h : ∀ p ∈ ps, ¬(removeSpaces p.2.text ≠ [] ∧ removeSpaces p.2.text = qClean)) :
    scanPairs qClean q b ps = .scanned (ps.foldl (updBest q) b) := by
  induction ps generalizing b with
  | nil => rfl
  | cons p rest ih =>
    have hp := h p (by simp)
    simp only [scanPairs, if_neg hp]
    rw [List.foldl_cons]
    exact ih _ (fun p' hp' => h p' (by simp [hp']))

theorem foldl_updBest_spec (q : Str) (ps : List (FaqEntry × Candidate)) (b : MatchResult) :
    (ps.foldl (updBest q) b = b ∧ ∀ p ∈ ps, calculateScore q p.2.text ≤ b.score) ∨
    (∃ l₁ p l₂, ps = l₁ ++ p :: l₂ ∧
      ps.foldl (updBest q) b =
        { score := calculateScore q p.2.text, entry := some p.1,
          matched := p.2.text, fromTag := p.2.fromTag } ∧
      b.score < calculateScore q p.2.text ∧
      (∀ p' ∈ l₁, calculateScore q p'.2.text < calculateScore q p.2.text) ∧
      (∀ p' ∈ ps, calculateScore q p'.2.text ≤ calculateScore q p.2.text)) := by
  induction ps generalizing b with
  | nil =>
    left
    exact ⟨rfl, by simp⟩
  | cons a rest ih =>
    rw [List.foldl_cons]
    by_cases ha : b.score < calculateScore q a.2.text
    · have hupd : updBest q b a =
          { score := calculateScore q a.2.text, entry := some a.1,
            matched := a.2.text, fromTag := a.2.fromTag } := by
        simp [updBest, ha]
      rw [hupd]
      rcases ih ⟨calculateScore q a.2.text, some a.1, a.2.text, a.2.fromTag⟩ with
        ⟨heq, hle⟩ | ⟨l₁, p, l₂, hsplit, heq, hgt, hlt, hle⟩
      · right
        refine ⟨[], a, rest, by simp, heq, ha, by simp, ?_⟩
        intro p' hp'
        rcases List.mem_cons.1 hp' with h' | h'
        · subst h'
          exact le_refl _
        · exact hle p' h'
      · right
        refine ⟨a :: l₁, p, l₂, by rw [hsplit, List.cons_append], heq, lt_trans ha hgt, ?_, ?_⟩
        · intro p' hp'
          rcases List.mem_cons.1 hp' with h' | h'
          · subst h'
            exact hgt
          · exact hlt p' h'
        · intro p' hp'
          rcases List.mem_cons.1 hp' with h' | h'
          · subst h'
            exact le_of_lt hgt
          · exact hle p' (hsplit ▸ h')
    · have hupd : updBest q b a = b := by
        simp [updBest, ha]
      rw [hupd]
      have hale : calculateScore q a.2.text ≤ b.score := le_of_not_lt ha
      rcases ih b with ⟨heq, hle⟩ | ⟨l₁, p, l₂, hsplit, heq, hgt, hlt, hle⟩
      · left
        refine ⟨heq, ?_⟩
        intro p' hp'
        rcases List.mem_cons.1 hp' with h' | h'
        · subst h'
          exact hale
        · exact hle p' h'
      · right
        refine ⟨a :: l₁, p, l₂, by rw [hsplit, List.cons_append], heq, hgt, ?_, ?_⟩
        · intro p' hp'
          rcases List.mem_cons.1 hp' with h' | h'
          · subst h'
            exact lt_of_le_of_lt hale hgt
          · exact hlt p' h'
        · intro p' hp'
          rcases List.mem_cons.1 hp' with h' | h'
          · subst h'
            exact le_of_lt (lt_of_le_of_lt hale hgt)
          · exact hle p' (hsplit ▸ h')

/-- C9 counterexample: with the query `"abab"`, an earlier entry's candidate
`"baba"` already attains the maximal score `1` (equal bigram sets), yet
`findBestMatch` returns the later entry `"abab"` through the exact-match fast
path, so the earliest pair attaining the maximal score is not returned. -/
theorem C9_counterexample_fastpath_beats_earlier_tie :
    calculateScore (trimStr (str "abab")) (str "baba") = 1 ∧
    findBestMatch defaultConfig
      [{ id := str "1", aliases := [str "baba"] }, { id := str "2", aliases := [str "abab"] }]
      (str "abab") =
      some { score := 1, entry := some { id := str "2", aliases := [str "abab"] },
             matched := str "abab", fromTag := str "alias" } := by decide

/-- C9 (amended): when no candidate's space-stripped text triggers the
exact-match fast path, ties are first-seen: any returned match is the earliest
(entry, candidate) pair in corpus iteration order attaining the maximal score
(every earlier pair scores strictly lower, every pair scores no higher).  With
the fast path, a later exactly-matching candidate can override an earlier
equal-scoring pair, as the counterexample shows. -/
theorem C9_findBestMatch_first_seen (cfg : MatchConfig) (faqs : List FaqEntry) (question : Str)
    (m : MatchResult)
    (hlen : cfg.minQueryChars ≤ (removeSpaces (trimStr question)).length)
    (hthr : (-1 : ℚ) < cfg.defaultThreshold)
    (hnoexact : ∀ p ∈ pairList faqs,
      ¬(removeSpaces p.2.text ≠ [] ∧ removeSpaces p.2.text = removeSpaces (trimStr question)))
    (hres : findBestMatch cfg faqs question = some m) :
    ∃ l₁ p l₂, pairList faqs = l₁ ++ p :: l₂ ∧
      m = { score := calculateScore (trimStr question) p.2.text, entry := some p.1,
            matched := p.2.text, fromTag := p.2.fromTag } ∧
      (∀ p' ∈ l₁,
        calculateScore (trimStr question) p'.2.text < calculateScore (trimStr question) p.2.text) ∧
      (∀ p' ∈ pairList faqs,
        calculateScore (trimStr question) p'.2.text ≤ calculateScore (trimStr question) p.2.text) := by
  unfold findBestMatch at hres
  dsimp only at hres
  rw [if_neg (not_lt.mpr hlen)] at hres
  rw [scanPairs_no_exact _ _ _ _ hnoexact] at hres
  dsimp only at hres
  rcases foldl_updBest_spec (trimStr question) (pairList faqs) initBest with
    ⟨heq, hle⟩ | ⟨l₁, p, l₂, hsplit, heq, hgt, hlt, hle⟩
  · rw [heq] at hres
    by_cases hth : cfg.defaultThreshold ≤ initBest.score
    · have h1 : cfg.defaultThreshold ≤ -1 := hth
      exact absurd hthr (not_lt.mpr h1)
    · rw [if_neg hth] at hres
      cases hres
  · rw [heq] at hres
    by_cases hth : cfg.defaultThreshold ≤
        calculateScore (trimStr question) p.2.text
    · rw [if_pos hth] at hres
      injection hres with hres
      subst hres
      exact ⟨l₁, p, l₂, hsplit, rfl, hlt, hle⟩
    · rw [if_neg hth] at hres
      cases hres

/-- Witness for C9 at concrete inputs: two entries both scoring `1` on the
query `"ab"` without any exact candidate; the returned match is the first pair
and every pair scores no higher. -/
theorem C9_findBestMatch_first_seen_witness :
    ∃ l₁ p l₂,
      pairList [{ id := str "1", aliases := [str "ba"] },
                { id := str "2", aliases := [str "ba"] }] = l₁ ++ p :: l₂ ∧
      ({ score := 1, entry := some { id := str "1", aliases := [str "ba"] },
         matched := str "ba", fromTag := str "alias" } : MatchResult) =
        { score := calculateScore (trimStr (str "ab")) p.2.text, entry := some p.1,
          matched := p.2.text, fromTag := p.2.fromTag } ∧
      (∀ p' ∈ l₁,
        calculateScore (trimStr (str "ab")) p'.2.text <
          calculateScore (trimStr (str "ab")) p.2.text) ∧
      (∀ p' ∈ pairList [{ id := str "1", aliases := [str "ba"] },
                        { id := str "2", aliases := [str "ba"] }],
        calculateScore (trimStr (str "ab")) p'.2.text ≤
          calculateScore (trimStr (str "ab")) p.2.text) :=
  C9_findBestMatch_first_seen defaultConfig
    [{ id := str "1", aliases := [str "ba"] }, { id := str "2", aliases := [str "ba"] }]
    (str "ab")
    { score := 1, entry := some { id := str "1", aliases := [str "ba"] },
      matched := str "ba", fromTag := str "alias" }
    (by decide) (by decide) (by decide) (by decide)

theorem detectLang_paramInactive (q : Str) (req : ReqCtx) (h : paramInactive req) :
    detectLang q req = detectLangRest q req := by
  unfold detectLang
  unfold paramInactive at h
  rcases hp : req.langParam with _ | p
  · rfl
  · rw [hp] at h
    dsimp only
    have hn : ¬(p ≠ [] ∧ lowerStr p ≠ str "auto") := by tauto
    rw [if_neg hn]

/-- C5 counterexample: with no explicit parameter, the Latin-script query
`"hello"` together with the Accept-Language header `ko` yields `ko`: the
header outranks the Latin-letters heuristic, contradicting the claimed order
in which the script heuristic (including Latin → `en`) precedes the header. -/
theorem C5_counterexample_header_beats_latin :
    detectLang (str "hello") { langParam := none, acceptLanguage := str "ko" } = str "ko" ∧
    detectLang (str "hello") { langParam := none, acceptLanguage := str "ko" } ≠ str "en" := by
  decide

/-- C5 (amended): `detectLang` evaluates, in order: (1) the explicit `lang`
parameter unless falsy or `auto`; (2) the script heuristic for Hangul (`ko`),
kana (`ja`) and CJK ideographs (`ja` with Japanese lexical hints, else
`zh-hant`, this revision's Chinese default) — Latin is not part of this step;
(3) the Accept-Language header's first listed tag, normalized, when nonempty;
(4) Latin letters → `en`; (5) the default `ko`. -/
theorem C5_detectLang_priority (q : Str) (req : ReqCtx) :
    (∀ p, req.langParam = some p → p ≠ [] → lowerStr p ≠ str "auto" →
      detectLang q req = normalizeLangTag p) ∧
    (paramInactive req → hasHangul q = true → detectLang q req = str "ko") ∧
    (paramInactive req → hasHangul q = false → hasKana q = true →
      detectLang q req = str "ja") ∧
    (paramInactive req → hasHangul q = false → hasKana q = false → hasHan q = true →
      detectLang q req = (if hasJaHint q then str "ja" else str "zh-hant")) ∧
    (paramInactive req → hasHangul q = false → hasKana q = false → hasHan q = false →
      lowerStr req.acceptLanguage ≠ [] → normalizeLangTag (firstHeaderTag req) ≠ [] →
      detectLang q req = normalizeLangTag (firstHeaderTag req)) ∧
    (paramInactive req → hasHangul q = false → hasKana q = false → hasHan q = false →
      (lowerStr req.acceptLanguage = [] ∨ normalizeLangTag (firstHeaderTag req) = []) →
      hasLatin q = true → detectLang q req = str "en") ∧
    (paramInactive req → hasHangul q = false → hasKana q = false → hasHan q = false →
      (lowerStr req.acceptLanguage = [] ∨ normalizeLangTag (firstHeaderTag req) = []) →
      hasLatin q = false → detectLang q req = str "ko") := by
  refine ⟨?_, ?_, ?_, ?_, ?_, ?_, ?_⟩
  · intro p hp hne hauto
    unfold detectLang
    rw [hp]
    dsimp only
    rw [if_pos ⟨hne, hauto⟩]
  · intro hpar h1
    rw [detectLang_paramInactive q req hpar]
    simp [detectLangRest, h1]
  · intro hpar h1 h2
    rw [detectLang_paramInactive q req hpar]
    simp [detectLangRest, h1, h2]
  · intro hpar h1 h2 h3
    rw [detectLang_paramInactive q req hpar]
    simp [detectLangRest, h1, h2, h3]
  · intro hpar h1 h2 h3 h5 h6
    rw [detectLang_paramInactive q req hpar]
    simp [detectLangRest, h1, h2, h3, h5, h6]
  · intro hpar h1 h2 h3 h5 h6
    rw [detectLang_paramInactive q req hpar]
    rcases h5 with h5 | h5 <;> simp [detectLangRest, h1, h2, h3, h5, h6]
  · intro hpar h1 h2 h3 h5 h6
    rw [detectLang_paramInactive q req hpar]
    rcases h5 with h5 | h5 <;> simp [detectLangRest, h1, h2, h3, h5, h6]

/-- Witness for C5 at concrete inputs: the header tier decides `"hello"` with
header `ko` (no parameter, no CJK script). -/
theorem C5_detectLang_priority_witness :
    detectLang (str "hello") { langParam := none, acceptLanguage := str "ko" } =
      normalizeLangTag (firstHeaderTag { langParam := none, acceptLanguage := str "ko" }) :=
  (C5_detectLang_priority (str "hello") { langParam := none, acceptLanguage := str "ko" }).2.2.2.2.1
    (by simp [paramInactive]) (by decide) (by decide) (by decide) (by decide) (by decide)

theorem normalizeLangTag_cases (t : Str) :
    normalizeLangTag t ∈ [str "ko", str "ja", str "en", str "zh-hans", str "zh-hant"] ∨
    normalizeLangTag t = trimStr (replaceFirstUnderscore (lowerStr t)) := by
  unfold normalizeLangTag normTagBranches
  split_ifs <;> simp_all

/-- C7 counterexample: `normalizeLangTag` passes the unrecognised tag `"fr"`
through unchanged, so its output is not confined to the canonical closed
5-tag set. -/
theorem C7_counterexample_fr_passthrough :
    normalizeLangTag (str "fr") = str "fr" ∧
    str "fr" ∉ [str "ko", str "ja", str "en", str "zh-hans", str "zh-hant"] := by decide

/-- C7 (amended): every `normalizeLangTag` output is either a member of the
canonical set or the lower-cased, first-underscore-unified, trimmed input
itself — unrecognised raw tags (anything not starting with `ko`/`ja`/`en`/`zh`
after that preprocessing, and the empty string) pass through rather than being
forced into the closed set. -/
theorem C7_normalizeLangTag_range (t : Str) :
    normalizeLangTag t ∈ [str "ko", str "ja", str "en", str "zh-hans", str "zh-hant"] ∨
    normalizeLangTag t = trimStr (replaceFirstUnderscore (lowerStr t)) :=
  normalizeLangTag_cases t

theorem toLower_toLower (c : Char) : c.toLower.toLower = c.toLower := by
  unfold Char.toLower
  dsimp only
  by_cases h : c.toNat ≥ 65 ∧ c.toNat ≤ 90
  · rw [if_pos h]
    obtain ⟨h1, h2⟩ := h
    interval_cases h3 : c.toNat
    all_goals decide
  · rw [if_neg h, if_neg h]

theorem trimStr_eq_rdropWhile (s : Str) :
    trimStr s = List.rdropWhile isSpaceChar (s.dropWhile isSpaceChar) := rfl

theorem dropWhile_trimStr (s : Str) :
    List.dropWhile isSpaceChar (trimStr s) = trimStr s := by
  rw [trimStr_eq_rdropWhile]
  rcases hT : List.rdropWhile isSpaceChar (s.dropWhile isSpaceChar) with _ | ⟨x, xs⟩
  · rfl
  · have hpre : List.rdropWhile isSpaceChar (s.dropWhile isSpaceChar) <+: s.dropWhile isSpaceChar :=
      List.rdropWhile_prefix _ _
    rw [hT] at hpre
    obtain ⟨t, ht⟩ := hpre
    have hA : s.dropWhile isSpaceChar = x :: (xs ++ t) := by
      rw [← ht]
      simp
    have hself : List.dropWhile isSpaceChar (s.dropWhile isSpaceChar) = s.dropWhile isSpaceChar :=
      List.dropWhile_idempotent _ _
    rw [hA, List.dropWhile_cons] at hself
    have hx : ¬ isSpaceChar x = true := by
      intro hx
      rw [if_pos hx] at hself
      have hlen := congrArg List.length hself
      have hle := List.Sublist.length_le (List.dropWhile_sublist (l := xs ++ t) isSpaceChar)
      rw [List.length_cons] at hlen
      omega
    rw [List.dropWhile_cons, if_neg hx]

theorem trimStr_trimStr (s : Str) : trimStr (trimStr s) = trimStr s := by
  rw [trimStr_eq_rdropWhile (trimStr s), dropWhile_trimStr s, trimStr_eq_rdropWhile s]
  exact List.rdropWhile_idempotent _ _

theorem mem_of_mem_trimStr {x : Char} {s : Str} (h : x ∈ trimStr s) : x ∈ s := by
  unfold trimStr at h
  rw [List.mem_reverse] at h
  have h2 := List.dropWhile_subset isSpaceChar h
  rw [List.mem_reverse] at h2
  exact List.dropWhile_subset isSpaceChar h2

theorem mem_replaceFirstUnderscore {x : Char} {s : Str}
    (h : x ∈ replaceFirstUnderscore s) : x ∈ s ∨ x = '-' := by
  induction s with
  | nil => cases h
  | cons c cs ih =>
    unfold replaceFirstUnderscore at h
    by_cases hc : c = '_'
    · rw [if_pos hc] at h
      rcases List.mem_cons.1 h with h | h
      · right
        exact h
      · left
        exact List.mem_cons_of_mem _ h
    · rw [if_neg hc] at h
      rcases List.mem_cons.1 h with h | h
      · left
        exact h ▸ List.mem_cons_self _ _
      · rcases ih h with h | h
        · left
          exact List.mem_cons_of_mem _ h
        · right
          exact h

theorem replaceFirstUnderscore_eq_self {s : Str} (h : '_' ∉ s) :
    replaceFirstUnderscore s = s := by
  induction s with
  | nil => rfl
  | cons c cs ih =>
    unfold replaceFirstUnderscore
    have hc : ¬ c = '_' := by
      intro hc
      exact h (hc ▸ List.mem_cons_self _ _)
    rw [if_neg hc]
    rw [ih (fun hm => h (List.mem_cons_of_mem _ hm))]

theorem not_mem_replaceFirstUnderscore {s : Str} (h : s.count '_' ≤ 1) :
    '_' ∉ replaceFirstUnderscore s := by
  induction s with
  | nil =>
    intro hm
    cases hm
  | cons c cs ih =>
    unfold replaceFirstUnderscore
    by_cases hc : c = '_'
    · rw [if_pos hc]
      intro hm
      rcases List.mem_cons.1 hm with h' | h'
      · exact absurd h' (by decide)
      · have hcnt : cs.count '_' = 0 := by
          rw [List.count_cons] at h
          simp [hc] at h
          omega
        exact (List.count_eq_zero.1 hcnt) h'
    · rw [if_neg hc]
      intro hm
      rcases List.mem_cons.1 hm with h' | h'
      · exact hc h'.symm
      · refine ih ?_ h'
        rw [List.count_cons] at h
        omega

theorem toLower_underscore_iff (c : Char) : c.toLower = '_' ↔ c = '_' := by
  unfold Char.toLower
  dsimp only
  by_cases h : c.toNat ≥ 65 ∧ c.toNat ≤ 90
  · rw [if_pos h]
    obtain ⟨h1, h2⟩ := h
    constructor
    · intro he
      exfalso
      interval_cases h3 : c.toNat <;> revert he <;> decide
    · intro he
      exfalso
      subst he
      exact absurd h2 (by decide)
  · rw [if_neg h]

theorem count_underscore_lowerStr (t : Str) : (lowerStr t).count '_' = t.count '_' := by
  induction t with
  | nil => rfl
  | cons c cs ih =>
    show (Char.toLower c :: lowerStr cs).count '_' = _
    rw [List.count_cons, List.count_cons, ih]
    have hbeq : (c.toLower == '_') = (c == '_') := by
      by_cases hc : c = '_'
      · subst hc
        decide
      · have hcl : ¬ c.toLower = '_' := fun he => hc ((toLower_underscore_iff c).1 he)
        simp [hc, hcl]
    rw [hbeq]

theorem lowerStr_fix {s : Str} (h : ∀ c ∈ s, c.toLower = c) : lowerStr s = s := by
  induction s with
  | nil => rfl
  | cons c cs ih =>
    show Char.toLower c :: lowerStr cs = c :: cs
    rw [h c (List.mem_cons_self _ _), ih (fun x hx => h x (List.mem_cons_of_mem _ hx))]

theorem normalizeLangTag_inner_fix {t : Str} (hcnt : t.count '_' ≤ 1) :
    trimStr (replaceFirstUnderscore (lowerStr (trimStr (replaceFirstUnderscore (lowerStr t))))) =
      trimStr (replaceFirstUnderscore (lowerStr t)) := by
  have hlow : lowerStr (trimStr (replaceFirstUnderscore (lowerStr t))) =
      trimStr (replaceFirstUnderscore (lowerStr t)) := by
    apply lowerStr_fix
    intro c hc
    have h1 : c ∈ replaceFirstUnderscore (lowerStr t) := mem_of_mem_trimStr hc
    rcases mem_replaceFirstUnderscore h1 with h2 | h2
    · obtain ⟨d, hd, rfl⟩ := List.mem_map.1 h2
      exact toLower_toLower d
    · subst h2
      decide
  have hcnt2 : (lowerStr t).count '_' ≤ 1 := by
    rw [count_underscore_lowerStr]
    exact hcnt
  have hnou : '_' ∉ trimStr (replaceFirstUnderscore (lowerStr t)) := fun hm =>
    not_mem_replaceFirstUnderscore hcnt2 (mem_of_mem_trimStr hm)
  rw [hlow, replaceFirstUnderscore_eq_self hnou]
  exact trimStr_trimStr _

/-- C10 counterexample: JavaScript `replace('_','-')` rewrites only the first
underscore, so a raw tag with two underscores is not a fixed point after one
normalization: re-normalizing `normalizeLangTag("a_b_c") = "a-b_c"` yields
`"a-b-c"`. -/
theorem C10_counterexample_double_underscore :
    normalizeLangTag (normalizeLangTag (str "a_b_c")) ≠ normalizeLangTag (str "a_b_c") := by
  decide

/-- C10 (amended): `normalizeLangTag` is idempotent on every input containing
at most one underscore (in particular on all well-formed tags from parameters,
headers and schema keys); inputs with two or more underscores that fall
through unrecognised lose one more underscore per application, as the
counterexample shows. -/
theorem C10_normalizeLangTag_idem (t : Str) (h : t.count '_' ≤ 1) :
    normalizeLangTag (normalizeLangTag t) = normalizeLangTag t := by
  rcases normalizeLangTag_cases t with hmem | hpass
  · simp only [List.mem_cons, List.not_mem_nil, or_false] at hmem
    rcases hmem with h1 | h1 | h1 | h1 | h1 <;> rw [h1] <;> decide
  · rw [hpass]
    unfold normalizeLangTag
    rw [normalizeLangTag_inner_fix h]
    exact hpass

/-- Witness for C10 at a concrete input: the single-underscore tag `zh_tw`. -/
theorem C10_normalizeLangTag_idem_witness :
    normalizeLangTag (normalizeLangTag (str "zh_tw")) = normalizeLangTag (str "zh_tw") :=
  C10_normalizeLangTag_idem (str "zh_tw") (by decide)

theorem jsOr_nil (b : Str) : jsOr [] b = b := rfl

theorem jsOr_assoc (a b c : Str) : jsOr (jsOr a b) c = jsOr a (jsOr b c) := by
  unfold jsOr
  by_cases h : a = [] <;> simp [h]

theorem find_fallback_eq_foldr (m : List (Str × Str)) (keys : List Str) (tailv : Str) :
    (match keys.find? (fun k => objGet m k != []) with
     | some k => objGet m k
     | none => tailv) =
    keys.foldr (fun k acc => jsOr (objGet m k) acc) tailv := by
  induction keys with
  | nil => rfl
  | cons k ks ih =>
    rw [List.foldr_cons, ← ih]
    by_cases hk : objGet m k = []
    · have hb : (objGet m k != []) = false := by simp [hk]
      rw [List.find?_cons, hb]
      simp [jsOr, hk]
    · have hb : (objGet m k != []) = true := by simp [hk]
      rw [List.find?_cons, hb]
      simp [jsOr, hk]

/-- C6 counterexample: (i) with answers only for `ja` and `en` and requested
language `ko`, `pickAnswer` returns the Japanese answer, not the English one,
so Japanese precedes English in the implemented fallback (the claim puts
English first); (ii) an entry whose only content is the legacy flat field
`answer_ko` yields the empty string — the FINAL v1.2 `pickAnswer` never reads
the flat-field or single-`answer` schemas; (iii) an entry whose first inserted
answer value is empty yields the empty string even though another nonempty
answer exists, so a non-empty result is not guaranteed by mere presence of
content. -/
theorem C6_counterexample_fallback_order :
    pickAnswer { answers := [(str "ja", str "J"), (str "en", str "E")] } (str "ko") = str "J" ∧
    str "J" ≠ str "E" ∧
    pickAnswer { answer_ko := some (str "K") } (str "ko") = [] ∧
    pickAnswer { answers := [(str "fr", []), (str "de", str "X")] } (str "ko") = [] := by
  decide

/-- C6 (amended): `pickAnswer` consults only the keyed `answers` mapping
(keys lower-cased with the first underscore unified; `zh-tw` cross-populates
`zh-hant` and `zh-cn`/`zh` cross-populate `zh-hans`), and resolves the answer
by the first nonempty value along the fixed priority order: requested tag
(preceded, for Chinese requests, by Traditional and `zh-tw`), then Korean,
Japanese, English, Traditional, `zh-tw`, `zh`, Simplified, then the first
value in insertion order, else the empty string. -/
theorem C6_pickAnswer_priority (entry : FaqEntry) (langInput : Str) :
    pickAnswer entry langInput = pickAnswerSpec entry langInput := by
  unfold pickAnswer pickAnswerSpec
  dsimp only
  rw [find_fallback_eq_foldr]
  by_cases hzh : (str "zh").isPrefixOf (normalizeLangTag langInput)
  · rw [if_pos hzh]
    simp only [priorityList, if_pos hzh, List.cons_append, List.nil_append,
      List.foldr_cons, List.foldr_nil]
    rw [jsOr_assoc]
  · rw [if_neg hzh]
    simp only [priorityList, if_neg hzh, List.cons_append, List.nil_append,
      List.foldr_cons, List.foldr_nil]
    rw [jsOr_nil]
